import Mathlib

/-!
# Auction-challenge: shallow embedding and verification

A shallow embedding of the bid-resolution program (`src/auction.rs`,
`src/auction_config.rs`, `src/main.rs`) together with proofs of the
specified properties.

Modelling conventions:

* Rust `f64` prices, adjustments and floors are modelled by a type
  parameter `α` equipped with explicit operation tables (`NumOps`): an
  addition, and the boolean comparisons `<` / `>` as the source uses
  them.  For the functional claims we instantiate `α := Rat` with the
  rational order (the spec calls prices "real-valued"); safety claims
  are proved for every operation table, which covers non-finite IEEE
  values whose comparisons behave arbitrarily.
* `HashMap`/`HashSet` are modelled as association lists / lists with
  first-match lookup (`assocGet`) and membership; `BTreeMap<&String, _>`
  is modelled as an association list kept sorted by the byte-wise
  (code-point lexicographic) string order that Rust's `Ord for String`
  uses, with `btreeInsert` and `assocGet`.
* `get_winning_bids` is translated twice: `get_winning_bids`, the plain
  function, and `get_winning_bids_checked`, where the source's
  `Option::unwrap` is modelled as a fallible step (`none` = panic), so
  that panic-freedom is a theorem rather than an assumption.
-/

/-- `Bid` from `src/auction.rs`: one offer. `bid` is the `f64` price,
modelled by the parameter `α`. -/
structure Bid (α : Type) where
  bidder : String
  unit : String
  bid : α
deriving DecidableEq, Repr

/-- `Auction` from `src/auction.rs`. -/
structure Auction (α : Type) where
  site : String
  units : List String
  bids : List (Bid α)
deriving DecidableEq, Repr

/-- `SiteConfig` from `src/auction_config.rs`: the `HashSet<String>` of
permitted bidders is modelled as a list with membership lookup. -/
structure SiteConfig (α : Type) where
  bidders : List String
  floor : α
deriving DecidableEq, Repr

/-- `Config` from `src/auction_config.rs`: both `HashMap`s are modelled
as association lists with first-match lookup. -/
structure Config (α : Type) where
  sites : List (String × SiteConfig α)
  bidder_adjustments : List (String × α)
deriving DecidableEq, Repr

/-- `WinningBid` from `src/auction.rs` (resolver-internal): the borrowed
bid together with its adjusted value. -/
structure WinningBid (α : Type) where
  bid : Bid α
  adjusted_bid_value : α
deriving DecidableEq, Repr

/-- Operation table for the price type: Rust `f64` addition and the
`PartialOrd` comparisons `<` and `>` as used by the source. -/
structure NumOps (α : Type) where
  add : α → α → α
  lt : α → α → Bool
  gt : α → α → Bool

/-- The rational instantiation used for the functional claims: exact
addition, and `<` / `>` of the linear order on `Rat` (for finite
doubles, IEEE comparison agrees with the real order, and `a > b` holds
iff `b < a`). -/
def ratOps : NumOps Rat where
  add a b := a + b
  lt a b := decide (a < b)
  gt a b := decide (b < a)

/-- First-match lookup in an association list; models both
`HashMap::get` (unique keys) and `BTreeMap::get` (sorted unique keys). -/
def assocGet {β : Type} : List (String × β) → String → Option β
  | [], _ => none
  | (k, v) :: rest, key => if k = key then some v else assocGet rest key

/-- Code-point lexicographic order on character lists; this is the order
of `Ord for String` in Rust (byte-wise comparison of UTF-8 agrees with
code-point order). -/
def charsLt : List Char → List Char → Bool
  | [], [] => false
  | [], _ :: _ => true
  | _ :: _, [] => false
  | a :: as, b :: bs =>
    if a.toNat < b.toNat then true
    else if b.toNat < a.toNat then false
    else charsLt as bs

/-- The string order used by the `BTreeMap` model. -/
def strLt (a b : String) : Bool := charsLt a.data b.data

/-- Insertion into the sorted association list modelling
`BTreeMap::insert` (replaces the value when the key is present). -/
def btreeInsert {β : Type} (k : String) (v : β) :
    List (String × β) → List (String × β)
  | [] => [(k, v)]
  | (k2, v2) :: rest =>
    if strLt k k2 then (k, v) :: (k2, v2) :: rest
    else if k = k2 then (k, v) :: rest
    else (k2, v2) :: btreeInsert k v rest

/-- The strict key order of the sorted association list. -/
def keyLt {β : Type} (p q : String × β) : Prop := strLt p.1 q.1 = true

/-- `is_valid_bid` from `src/auction.rs`. -/
def is_valid_bid {α : Type} (bid : Bid α) (auction : Auction α)
    (site_config : SiteConfig α) : Bool :=
  auction.units.contains bid.unit && site_config.bidders.contains bid.bidder

/-- The body of the `for bid in &auction.bids` loop of
`get_winning_bids` (`src/auction.rs`), acting on the `BTreeMap` model;
each `continue` of the source is a branch returning `m` unchanged. -/
def stepBid {α : Type} (ops : NumOps α) (auction : Auction α)
    (config : Config α) (site_config : SiteConfig α)
    (m : List (String × WinningBid α)) (bid : Bid α) :
    List (String × WinningBid α) :=
  if !is_valid_bid bid auction site_config then m
  else
    match assocGet config.bidder_adjustments bid.bidder with
    | none => m
    | some bidder_adjustment =>
      let adjusted_bid_value := ops.add bid.bid bidder_adjustment
      if ops.lt adjusted_bid_value site_config.floor then m
      else
        match assocGet m bid.unit with
        | none => btreeInsert bid.unit ⟨bid, adjusted_bid_value⟩ m
        | some cur_winning_bid =>
          if ops.gt adjusted_bid_value cur_winning_bid.adjusted_bid_value then
            btreeInsert bid.unit ⟨bid, adjusted_bid_value⟩ m
          else m

/-- `get_winning_bids` from `src/auction.rs`: the winners' original bid
objects, in ascending key order of the `BTreeMap` (the sorted
association list). -/
def get_winning_bids {α : Type} (ops : NumOps α) (auction : Auction α)
    (config : Config α) : List (Bid α) :=
  match assocGet config.sites auction.site with
  | none => []
  | some site_config =>
    (auction.bids.foldl (stepBid ops auction config site_config) []).map
      (fun p => p.2.bid)

/-- The loop body again, with the source's exact guard
`cur_winning_bid.is_none() || adjusted_bid_value >
cur_winning_bid.unwrap().adjusted_bid_value`: the short-circuit `||` is
modelled by the `isNone` test, and the `unwrap` is fallible — reaching
it with `none` yields `none` (a panic). -/
def stepBidChecked {α : Type} (ops : NumOps α) (auction : Auction α)
    (config : Config α) (site_config : SiteConfig α)
    (m : List (String × WinningBid α)) (bid : Bid α) :
    Option (List (String × WinningBid α)) :=
  if !is_valid_bid bid auction site_config then some m
  else
    match assocGet config.bidder_adjustments bid.bidder with
    | none => some m
    | some bidder_adjustment =>
      let adjusted_bid_value := ops.add bid.bid bidder_adjustment
      if ops.lt adjusted_bid_value site_config.floor then some m
      else
        let cur_winning_bid := assocGet m bid.unit
        if cur_winning_bid.isNone then
          some (btreeInsert bid.unit ⟨bid, adjusted_bid_value⟩ m)
        else
          match cur_winning_bid with
          | none => none
          | some cur =>
            if ops.gt adjusted_bid_value cur.adjusted_bid_value then
              some (btreeInsert bid.unit ⟨bid, adjusted_bid_value⟩ m)
            else some m

/-- `get_winning_bids` with the fallible loop body: `none` means some
iteration panicked. -/
def get_winning_bids_checked {α : Type} (ops : NumOps α)
    (auction : Auction α) (config : Config α) : Option (List (Bid α)) :=
  match assocGet config.sites auction.site with
  | none => some []
  | some site_config => do
    let m ← auction.bids.foldlM (stepBidChecked ops auction config site_config) []
    pure (m.map (fun p => p.2.bid))

/-- A serialized JSON number: `serialize_i64` produces an integer
literal (no decimal point), `serialize_f64` a floating-point literal. -/
inductive JsonNum where
  | intLit (n : Int)
  | floatLit (q : Rat)
deriving DecidableEq, Repr

/-- `i64::MAX`. -/
def i64Max : Int := 9223372036854775807

/-- `i64::MIN`. -/
def i64Min : Int := -9223372036854775808

/-- Truncation toward zero of a rational, as `f64::trunc`. -/
def ratTrunc (q : Rat) : Int :=
  if 0 ≤ q.num then ((q.num.toNat / q.den : Nat) : Int)
  else -(((-q.num).toNat / q.den : Nat) : Int)

/-- `f64::fract`: the value minus its truncation toward zero. -/
def ratFract (q : Rat) : Rat := q - (ratTrunc q : Rat)

/-- Rust's `as i64` cast on a (finite) `f64`: truncate toward zero and
saturate to the `i64` range. -/
def f64_as_i64 (q : Rat) : Int := max i64Min (min i64Max (ratTrunc q))

/-- `serialize_float` from `src/auction.rs`: whole values are emitted
through `serialize_i64(*f as i64)`, others through `serialize_f64`. -/
def serialize_float (q : Rat) : JsonNum :=
  if ratFract q = 0 then JsonNum.intLit (f64_as_i64 q) else JsonNum.floatLit q

/-- A serialized bid, with the price rendered by `serialize_float`
(the `#[serde(serialize_with = "serialize_float")]` attribute on
`Bid.bid`). -/
structure JsonBid where
  bidder : String
  unit : String
  bid : JsonNum
deriving DecidableEq, Repr

/-- Serialization of one winning bid to the output stream. -/
def encodeBid {α : Type} (enc : α → JsonNum) (b : Bid α) : JsonBid :=
  { bidder := b.bidder, unit := b.unit, bid := enc b.bid }

/-- One element of the input stream as seen by the decoder: either a
well-formed auction object or a malformed element (decode error). -/
inductive StreamItem (α : Type) where
  | elem (a : Auction α)
  | malformed
deriving DecidableEq, Repr

/-- The decoder thread of `src/main.rs` (`AuctionProcessor.visit_seq`
driven by `deserialize_seq`, with `.unwrap()` on the result): it sends
each successfully decoded auction over the channel, and on the first
malformed element the `unwrap` panics — that thread stops and the
sender is dropped.  Returns the auctions actually sent and whether the
thread panicked. -/
def decoderSent {α : Type} : List (StreamItem α) → List (Auction α) × Bool
  | [] => ([], false)
  | StreamItem.elem a :: rest =>
    let r := decoderSent rest
    (a :: r.1, r.2)
  | StreamItem.malformed :: _ => ([], true)

/-- Observable outcome of one run of `main` (`src/main.rs`). -/
structure RunOutcome (α : Type) where
  /-- The elements written to the output sequence, in order. -/
  output : List (List (Bid α))
  /-- Whether the output sequence was closed by `seq_serializer.end()`. -/
  closed : Bool
  /-- Whether `main` returned `Ok(())` (process exit status 0).  `main`'s
  `serde_json::Result` can only carry serializer I/O errors; with the
  stdout writer modelled as infallible it is always `Ok`. -/
  mainOk : Bool
  /-- Whether the spawned decoder thread panicked.  A panic in a spawned
  thread does not unwind the main thread. -/
  decoderPanicked : Bool
deriving DecidableEq, Repr

/-- One run of the pipeline of `src/main.rs`: the decoder thread sends
the decoded prefix of the input; `for auction in receiver` resolves each
received auction and serializes the winner list; when the sender is
dropped (input exhausted or decoder panic) the loop ends, the sequence
is closed and `main` returns its result. -/
def runPipeline {α : Type} (ops : NumOps α) (config : Config α)
    (input : List (StreamItem α)) : RunOutcome α :=
  let sent := decoderSent input
  { output := sent.1.map (fun a => get_winning_bids ops a config)
    closed := true
    mainOk := true
    decoderPanicked := sent.2 }

/-- The bids that step 2–4 of the spec keep: eligible
(`is_valid_bid`), with a configured adjustment, and with adjusted value
not below the floor (the source's `continue` conditions negated). -/
def bidSurvives {α : Type} (ops : NumOps α) (auction : Auction α)
    (config : Config α) (site_config : SiteConfig α) (b : Bid α) : Bool :=
  is_valid_bid b auction site_config &&
    match assocGet config.bidder_adjustments b.bidder with
    | none => false
    | some adj => !(ops.lt (ops.add b.bid adj) site_config.floor)

/-- The surviving bids of an auction, in input order. -/
def survivingBids {α : Type} (ops : NumOps α) (auction : Auction α)
    (config : Config α) (site_config : SiteConfig α) : List (Bid α) :=
  auction.bids.filter (bidSurvives ops auction config site_config)

/-- The adjusted value of a bid (meaningful when the bidder has a
configured adjustment; defaults to the raw price otherwise). -/
def adjVal {α : Type} (ops : NumOps α) (config : Config α) (b : Bid α) : α :=
  match assocGet config.bidder_adjustments b.bidder with
  | none => b.bid
  | some adj => ops.add b.bid adj

/-- `w` is the earliest element of `l` attaining the maximum of `f`:
everything before it is strictly smaller, everything after it no
greater. -/
def IsFirstMax {α : Type} (f : Bid α → Rat) (l : List (Bid α)) (w : Bid α) : Prop :=
  ∃ pre post, l = pre ++ w :: post ∧
    (∀ b ∈ pre, f b < f w) ∧ (∀ b ∈ post, f b ≤ f w)

/-- Reference scan for a single unit: the winner so far, replaced
exactly when a later bid's adjusted value wins the `ops.gt` test. -/
def scanW {α : Type} (ops : NumOps α) (config : Config α) :
    Option (WinningBid α) → List (Bid α) → Option (WinningBid α)
  | cur, [] => cur
  | cur, b :: rest =>
    match cur with
    | none => scanW ops config (some ⟨b, adjVal ops config b⟩) rest
    | some c =>
      if ops.gt (adjVal ops config b) c.adjusted_bid_value then
        scanW ops config (some ⟨b, adjVal ops config b⟩) rest
      else scanW ops config (some c) rest


/-- A concrete configuration snapshot used as a test vector (one site,
floor 32, two configured bidders with negative adjustments). -/
def sampleSite : SiteConfig Rat := { bidders := ["AUCT", "BIDD"], floor := 32 }

/-- A concrete `Config` test vector. -/
def sampleConfig : Config Rat :=
  { sites := [("houseofcheese.com", sampleSite)]
    bidder_adjustments := [("AUCT", -(2 : Rat)/100), ("BIDD", -(5 : Rat)/100)] }

/-- The example auction of the repository's tests. -/
def sampleAuction : Auction Rat :=
  { site := "houseofcheese.com"
    units := ["banner", "sidebar"]
    bids := [⟨"AUCT", "banner", 35⟩, ⟨"BIDD", "sidebar", 60⟩,
      ⟨"AUCT", "sidebar", 55⟩] }

/-- Two bids whose adjusted values tie exactly at the floor
(32.02 - 0.02 = 32 and 32.05 - 0.05 = 32). -/
def tieAuction : Auction Rat :=
  { site := "houseofcheese.com"
    units := ["sidebar"]
    bids := [⟨"AUCT", "sidebar", (3202 : Rat)/100⟩,
      ⟨"BIDD", "sidebar", (3205 : Rat)/100⟩] }

/-- One bid whose adjusted value 29.98 is below the floor 32. -/
def belowAuction : Auction Rat :=
  { site := "houseofcheese.com"
    units := ["banner"]
    bids := [⟨"AUCT", "banner", 30⟩] }

/-- The example auction with a site absent from the configuration. -/
def unknownAuction : Auction Rat := { sampleAuction with site := "unknown.com" }

theorem charsLt_irrefl (l : List Char) : charsLt l l = false := by
  induction l with
  | nil => rfl
  | cons a as ih => simp [charsLt, ih]

theorem charsLt_trans {a b c : List Char} (hab : charsLt a b = true)
    (hbc : charsLt b c = true) : charsLt a c = true := by
  induction a generalizing b c with
  | nil =>
    cases b with
    | nil => simp [charsLt] at hab
    | cons y ys =>
      cases c with
      | nil => simp [charsLt] at hbc
      | cons z zs => rfl
  | cons x xs ih =>
    cases b with
    | nil => simp [charsLt] at hab
    | cons y ys =>
      cases c with
      | nil => simp [charsLt] at hbc
      | cons z zs =>
        simp only [charsLt] at hab hbc ⊢
        by_cases hxy : x.toNat < y.toNat
        · by_cases hyz : y.toNat < z.toNat
          · have hxz : x.toNat < z.toNat := Nat.lt_trans hxy hyz
            simp [hxz]
          · by_cases hzy : z.toNat < y.toNat
            · simp [hyz, hzy] at hbc
            · have hxz : x.toNat < z.toNat := by omega
              simp [hxz]
        · by_cases hyx : y.toNat < x.toNat
          · simp [hxy, hyx] at hab
          · simp only [hxy, hyx, if_false] at hab
            by_cases hyz : y.toNat < z.toNat
            · have hxz : x.toNat < z.toNat := by omega
              simp [hxz]
            · by_cases hzy : z.toNat < y.toNat
              · simp [hyz, hzy] at hbc
              · simp only [hyz, hzy, if_false] at hbc
                have h1 : ¬ x.toNat < z.toNat := by omega
                have h2 : ¬ z.toNat < x.toNat := by omega
                simp only [h1, h2, if_false]
                exact ih hab hbc

theorem charsLt_of_not {a b : List Char} (hab : charsLt a b = false)
    (hne : a ≠ b) : charsLt b a = true := by
  induction a generalizing b with
  | nil =>
    cases b with
    | nil => exact absurd rfl hne
    | cons y ys => simp [charsLt] at hab
  | cons x xs ih =>
    cases b with
    | nil => rfl
    | cons y ys =>
      simp only [charsLt] at hab ⊢
      by_cases hxy : x.toNat < y.toNat
      · simp [hxy] at hab
      · by_cases hyx : y.toNat < x.toNat
        · simp [hyx]
        · have hv : x.toNat = y.toNat := by omega
          have hx : x = y := Char.ext (UInt32.ext hv)
          subst hx
          simp only [hxy, hyx, if_false] at hab ⊢
          have hxs : xs ≠ ys := by
            intro h
            exact hne (by rw [h])
          exact ih hab hxs

theorem strLt_irrefl (a : String) : strLt a a = false := charsLt_irrefl a.data

theorem strLt_trans {a b c : String} (hab : strLt a b = true)
    (hbc : strLt b c = true) : strLt a c = true := charsLt_trans hab hbc

theorem strLt_of_not {a b : String} (hab : strLt a b = false) (hne : a ≠ b) :
    strLt b a = true :=
  charsLt_of_not hab (fun hd => hne (String.ext hd))

theorem strLt_ne {a b : String} (h : strLt a b = true) : a ≠ b := by
  intro he
  subst he
  rw [strLt_irrefl] at h
  cases h

theorem btreeInsert_cons {β : Type} (k k2 : String) (v v2 : β)
    (rest : List (String × β)) :
    btreeInsert k v ((k2, v2) :: rest) =
      if strLt k k2 = true then (k, v) :: (k2, v2) :: rest
      else if k = k2 then (k, v) :: rest
      else (k2, v2) :: btreeInsert k v rest := rfl

theorem mem_btreeInsert {β : Type} {k : String} {v : β} {m : List (String × β)}
    {p : String × β} (hp : p ∈ btreeInsert k v m) : p = (k, v) ∨ p ∈ m := by
  induction m with
  | nil => simpa [btreeInsert] using hp
  | cons q rest ih =>
    obtain ⟨k2, v2⟩ := q
    rw [btreeInsert_cons] at hp
    by_cases h1 : strLt k k2 = true
    · rw [if_pos h1] at hp
      rcases List.mem_cons.mp hp with h | h
      · exact Or.inl h
      · exact Or.inr h
    · rw [if_neg h1] at hp
      by_cases h2 : k = k2
      · rw [if_pos h2] at hp
        rcases List.mem_cons.mp hp with h | h
        · exact Or.inl h
        · exact Or.inr (List.mem_cons_of_mem _ h)
      · rw [if_neg h2] at hp
        rcases List.mem_cons.mp hp with h | h
        · exact Or.inr (List.mem_cons.mpr (Or.inl h))
        · rcases ih h with h3 | h3
          · exact Or.inl h3
          · exact Or.inr (List.mem_cons_of_mem _ h3)

theorem assocGet_btreeInsert_self {β : Type} (k : String) (v : β)
    (m : List (String × β)) : assocGet (btreeInsert k v m) k = some v := by
  induction m with
  | nil => simp [btreeInsert, assocGet]
  | cons q rest ih =>
    obtain ⟨k2, v2⟩ := q
    rw [btreeInsert_cons]
    by_cases h1 : strLt k k2 = true
    · rw [if_pos h1]
      simp [assocGet]
    · rw [if_neg h1]
      by_cases h2 : k = k2
      · rw [if_pos h2]
        simp [assocGet]
      · rw [if_neg h2]
        have h3 : k2 ≠ k := Ne.symm h2
        simp [assocGet, h3, ih]

theorem assocGet_btreeInsert_ne {β : Type} {k u : String} (hne : k ≠ u)
    (v : β) (m : List (String × β)) :
    assocGet (btreeInsert k v m) u = assocGet m u := by
  induction m with
  | nil => simp [btreeInsert, assocGet, hne]
  | cons q rest ih =>
    obtain ⟨k2, v2⟩ := q
    rw [btreeInsert_cons]
    by_cases h1 : strLt k k2 = true
    · rw [if_pos h1]
      simp [assocGet, hne]
    · rw [if_neg h1]
      by_cases h2 : k = k2
      · rw [if_pos h2]
        subst h2
        simp [assocGet, hne]
      · rw [if_neg h2]
        by_cases h4 : k2 = u
        · simp [assocGet, h4]
        · simp [assocGet, h4, ih]

theorem pairwise_btreeInsert {β : Type} {m : List (String × β)} (k : String)
    (v : β) (hm : m.Pairwise keyLt) :
    (btreeInsert k v m).Pairwise keyLt := by
  induction m with
  | nil => simp [btreeInsert]
  | cons q rest ih =>
    obtain ⟨k2, v2⟩ := q
    rw [List.pairwise_cons] at hm
    obtain ⟨hq, hrest⟩ := hm
    rw [btreeInsert_cons]
    by_cases h1 : strLt k k2 = true
    · rw [if_pos h1]
      refine List.Pairwise.cons ?_ (List.Pairwise.cons hq hrest)
      intro p hp
      rcases List.mem_cons.mp hp with rfl | hp
      · exact h1
      · exact strLt_trans h1 (hq p hp)
    · rw [if_neg h1]
      by_cases h2 : k = k2
      · rw [if_pos h2]
        subst h2
        exact List.Pairwise.cons (fun p hp => hq p hp) hrest
      · rw [if_neg h2]
        refine List.Pairwise.cons ?_ (ih hrest)
        intro p hp
        rcases mem_btreeInsert hp with rfl | hp
        · exact strLt_of_not (Bool.not_eq_true _ ▸ h1) h2
        · exact hq p hp

theorem ratOps_add (a b : Rat) : ratOps.add a b = a + b := rfl

theorem ratOps_lt_iff {a b : Rat} : ratOps.lt a b = true ↔ a < b := by
  simp [ratOps]

theorem ratOps_lt_false_iff {a b : Rat} : ratOps.lt a b = false ↔ b ≤ a := by
  simp [ratOps]

theorem ratOps_gt_iff {a b : Rat} : ratOps.gt a b = true ↔ b < a := by
  simp [ratOps]

theorem ratOps_gt_false_iff {a b : Rat} : ratOps.gt a b = false ↔ a ≤ b := by
  simp [ratOps]

theorem bidSurvives_true_iff {α : Type} (ops : NumOps α) (a : Auction α)
    (cfg : Config α) (sc : SiteConfig α) (b : Bid α) :
    bidSurvives ops a cfg sc b = true ↔
      is_valid_bid b a sc = true ∧
      ∃ adj, assocGet cfg.bidder_adjustments b.bidder = some adj ∧
        ops.lt (ops.add b.bid adj) sc.floor = false := by
  unfold bidSurvives
  cases hadj : assocGet cfg.bidder_adjustments b.bidder with
  | none => simp
  | some adj => simp

theorem adjVal_of_get {α : Type} {ops : NumOps α} {cfg : Config α} {b : Bid α}
    {adj : α} (h : assocGet cfg.bidder_adjustments b.bidder = some adj) :
    adjVal ops cfg b = ops.add b.bid adj := by
  unfold adjVal
  rw [h]

theorem stepBid_of_not_surviving {α : Type} {ops : NumOps α} {a : Auction α}
    {cfg : Config α} {sc : SiteConfig α} {b : Bid α}
    (m : List (String × WinningBid α))
    (h : bidSurvives ops a cfg sc b = false) :
    stepBid ops a cfg sc m b = m := by
  unfold stepBid
  unfold bidSurvives at h
  cases hval : is_valid_bid b a sc with
  | false => simp [hval]
  | true =>
    rw [hval] at h
    cases hadj : assocGet cfg.bidder_adjustments b.bidder with
    | none => simp [hval, hadj]
    | some adj =>
      rw [hadj] at h
      have hlt : ops.lt (ops.add b.bid adj) sc.floor = true := by
        simpa using h
      simp [hval, hadj, hlt]

theorem stepBid_surviving_none {α : Type} {ops : NumOps α} {a : Auction α}
    {cfg : Config α} {sc : SiteConfig α} {b : Bid α}
    {m : List (String × WinningBid α)}
    (h : bidSurvives ops a cfg sc b = true)
    (hget : assocGet m b.unit = none) :
    stepBid ops a cfg sc m b =
      btreeInsert b.unit ⟨b, adjVal ops cfg b⟩ m := by
  rcases (bidSurvives_true_iff ops a cfg sc b).mp h with ⟨hval, adj, hadj, hlt⟩
  unfold stepBid
  rw [adjVal_of_get hadj]
  simp [hval, hadj, hlt, hget]

theorem stepBid_surviving_some {α : Type} {ops : NumOps α} {a : Auction α}
    {cfg : Config α} {sc : SiteConfig α} {b : Bid α}
    {m : List (String × WinningBid α)} {c : WinningBid α}
    (h : bidSurvives ops a cfg sc b = true)
    (hget : assocGet m b.unit = some c) :
    stepBid ops a cfg sc m b =
      if ops.gt (adjVal ops cfg b) c.adjusted_bid_value = true then
        btreeInsert b.unit ⟨b, adjVal ops cfg b⟩ m
      else m := by
  rcases (bidSurvives_true_iff ops a cfg sc b).mp h with ⟨hval, adj, hadj, hlt⟩
  unfold stepBid
  rw [adjVal_of_get hadj]
  simp [hval, hadj, hlt, hget]

theorem scanW_nil {α : Type} (ops : NumOps α) (cfg : Config α)
    (cur : Option (WinningBid α)) : scanW ops cfg cur [] = cur := by
  cases cur <;> rfl

theorem scanW_cons_none {α : Type} (ops : NumOps α) (cfg : Config α)
    (b : Bid α) (l : List (Bid α)) :
    scanW ops cfg none (b :: l) =
      scanW ops cfg (some ⟨b, adjVal ops cfg b⟩) l := rfl

theorem scanW_cons_some {α : Type} (ops : NumOps α) (cfg : Config α)
    (c : WinningBid α) (b : Bid α) (l : List (Bid α)) :
    scanW ops cfg (some c) (b :: l) =
      if ops.gt (adjVal ops cfg b) c.adjusted_bid_value = true then
        scanW ops cfg (some ⟨b, adjVal ops cfg b⟩) l
      else scanW ops cfg (some c) l := rfl

theorem fold_entries {α : Type} (ops : NumOps α) (a : Auction α)
    (cfg : Config α) (sc : SiteConfig α) (bids : List (Bid α))
    (m : List (String × WinningBid α)) (p : String × WinningBid α)
    (hp : p ∈ bids.foldl (stepBid ops a cfg sc) m) :
    p ∈ m ∨ (p.2.bid ∈ bids ∧ bidSurvives ops a cfg sc p.2.bid = true ∧
      p.1 = p.2.bid.unit ∧ p.2.adjusted_bid_value = adjVal ops cfg p.2.bid) := by
  induction bids generalizing m with
  | nil => exact Or.inl hp
  | cons b rest ih =>
    rw [List.foldl_cons] at hp
    rcases ih _ hp with hmem | hnew
    · by_cases hs : bidSurvives ops a cfg sc b = true
      · have hins : p ∈ btreeInsert b.unit
            (⟨b, adjVal ops cfg b⟩ : WinningBid α) m →
            p ∈ m ∨ (p.2.bid ∈ b :: rest ∧
              bidSurvives ops a cfg sc p.2.bid = true ∧
              p.1 = p.2.bid.unit ∧
              p.2.adjusted_bid_value = adjVal ops cfg p.2.bid) := by
          intro hin
          rcases mem_btreeInsert hin with he | hin2
          · refine Or.inr ?_
            rw [he]
            exact ⟨List.mem_cons_self b rest, hs, rfl, rfl⟩
          · exact Or.inl hin2
        cases hget : assocGet m b.unit with
        | none =>
          rw [stepBid_surviving_none hs hget] at hmem
          exact hins hmem
        | some c =>
          rw [stepBid_surviving_some hs hget] at hmem
          by_cases hgt : ops.gt (adjVal ops cfg b) c.adjusted_bid_value = true
          · rw [if_pos hgt] at hmem
            exact hins hmem
          · rw [if_neg hgt] at hmem
            exact Or.inl hmem
      · rw [stepBid_of_not_surviving _ (Bool.not_eq_true _ ▸ hs)] at hmem
        exact Or.inl hmem
    · exact Or.inr ⟨List.mem_cons_of_mem _ hnew.1, hnew.2⟩

theorem fold_pairwise {α : Type} (ops : NumOps α) (a : Auction α)
    (cfg : Config α) (sc : SiteConfig α) (bids : List (Bid α))
    (m : List (String × WinningBid α)) (hm : m.Pairwise keyLt) :
    (bids.foldl (stepBid ops a cfg sc) m).Pairwise keyLt := by
  induction bids generalizing m with
  | nil => exact hm
  | cons b rest ih =>
    rw [List.foldl_cons]
    refine ih _ ?_
    by_cases hs : bidSurvives ops a cfg sc b = true
    · cases hget : assocGet m b.unit with
      | none =>
        rw [stepBid_surviving_none hs hget]
        exact pairwise_btreeInsert _ _ hm
      | some c =>
        rw [stepBid_surviving_some hs hget]
        by_cases hgt : ops.gt (adjVal ops cfg b) c.adjusted_bid_value = true
        · rw [if_pos hgt]
          exact pairwise_btreeInsert _ _ hm
        · rw [if_neg hgt]
          exact hm
    · rw [stepBid_of_not_surviving _ (Bool.not_eq_true _ ▸ hs)]
      exact hm

theorem fold_get {α : Type} (ops : NumOps α) (a : Auction α) (cfg : Config α)
    (sc : SiteConfig α) (bids : List (Bid α))
    (m : List (String × WinningBid α)) (u : String) :
    assocGet (bids.foldl (stepBid ops a cfg sc) m) u =
      scanW ops cfg (assocGet m u)
        (bids.filter (fun b => bidSurvives ops a cfg sc b && b.unit == u)) := by
  induction bids generalizing m with
  | nil => exact (scanW_nil ops cfg _).symm
  | cons b rest ih =>
    rw [List.foldl_cons, List.filter_cons]
    by_cases hs : bidSurvives ops a cfg sc b = true
    · by_cases hu : b.unit = u
      · have hcond : (bidSurvives ops a cfg sc b && (b.unit == u)) = true := by
          simp [hs, hu]
        rw [if_pos (by simp [hcond]), ih]
        subst hu
        cases hget : assocGet m b.unit with
        | none =>
          rw [stepBid_surviving_none hs hget, scanW_cons_none,
            assocGet_btreeInsert_self]
        | some c =>
          rw [stepBid_surviving_some hs hget, scanW_cons_some]
          by_cases hgt : ops.gt (adjVal ops cfg b) c.adjusted_bid_value = true
          · rw [if_pos hgt, if_pos hgt, assocGet_btreeInsert_self]
          · rw [if_neg hgt, if_neg hgt, hget]
      · have hcond : (bidSurvives ops a cfg sc b && (b.unit == u)) = false := by
          simp [hu]
        rw [if_neg (by simp [hcond]), ih]
        have hstep : assocGet (stepBid ops a cfg sc m b) u = assocGet m u := by
          cases hget : assocGet m b.unit with
          | none =>
            rw [stepBid_surviving_none hs hget]
            exact assocGet_btreeInsert_ne hu _ _
          | some c =>
            rw [stepBid_surviving_some hs hget]
            by_cases hgt : ops.gt (adjVal ops cfg b) c.adjusted_bid_value = true
            · rw [if_pos hgt]
              exact assocGet_btreeInsert_ne hu _ _
            · rw [if_neg hgt]
        rw [hstep]
    · have hcond : (bidSurvives ops a cfg sc b && (b.unit == u)) = false := by
        simp [hs]
      rw [if_neg (by simp [hcond]), ih,
        stepBid_of_not_surviving _ (Bool.not_eq_true _ ▸ hs)]

theorem scanW_cons_pair {α : Type} (ops : NumOps α) (cfg : Config α)
    (c b : Bid α) (l : List (Bid α)) :
    scanW ops cfg (some ⟨c, adjVal ops cfg c⟩) (b :: l) =
      if ops.gt (adjVal ops cfg b) (adjVal ops cfg c) = true then
        scanW ops cfg (some ⟨b, adjVal ops cfg b⟩) l
      else scanW ops cfg (some ⟨c, adjVal ops cfg c⟩) l := rfl

theorem scanW_spec (cfg : Config Rat) (l : List (Bid Rat)) (c : Bid Rat) :
    ∃ w, scanW ratOps cfg (some ⟨c, adjVal ratOps cfg c⟩) l =
        some ⟨w, adjVal ratOps cfg w⟩ ∧
      IsFirstMax (adjVal ratOps cfg) (c :: l) w := by
  induction l generalizing c with
  | nil =>
    refine ⟨c, by rw [scanW_nil], [], [], rfl, ?_, ?_⟩
    · intro b hb
      exact absurd hb (List.not_mem_nil b)
    · intro b hb
      exact absurd hb (List.not_mem_nil b)
  | cons b rest ih =>
    rw [scanW_cons_pair]
    by_cases hgt : ratOps.gt (adjVal ratOps cfg b) (adjVal ratOps cfg c) = true
    · obtain ⟨w, hw, pre, post, hsplit, hpre, hpost⟩ := ih b
      refine ⟨w, by rw [if_pos hgt]; exact hw, ?_⟩
      have hcb : adjVal ratOps cfg c < adjVal ratOps cfg b := ratOps_gt_iff.mp hgt
      have hcw : adjVal ratOps cfg c < adjVal ratOps cfg w := by
        cases pre with
        | nil =>
          have h2 : b = w ∧ rest = post := by simpa using hsplit
          rw [← h2.1]
          exact hcb
        | cons p pre2 =>
          have h2 : b = p ∧ rest = pre2 ++ w :: post := by
            simpa using hsplit
          have hbw : adjVal ratOps cfg b < adjVal ratOps cfg w := by
            refine hpre b ?_
            rw [h2.1]
            exact List.mem_cons_self _ _
          exact lt_trans hcb hbw
      refine ⟨c :: pre, post, ?_, ?_, hpost⟩
      · rw [List.cons_append, ← hsplit]
      · intro x hx
        rcases List.mem_cons.mp hx with rfl | hx2
        · exact hcw
        · exact hpre x hx2
    · obtain ⟨w, hw, pre, post, hsplit, hpre, hpost⟩ := ih c
      refine ⟨w, by rw [if_neg hgt]; exact hw, ?_⟩
      have hbc : adjVal ratOps cfg b ≤ adjVal ratOps cfg c :=
        ratOps_gt_false_iff.mp (Bool.not_eq_true _ ▸ hgt)
      cases pre with
      | nil =>
        have h2 : c = w ∧ rest = post := by simpa using hsplit
        obtain ⟨hc, hrest⟩ := h2
        subst hc
        subst hrest
        refine ⟨[], b :: rest, rfl, ?_, ?_⟩
        · intro x hx
          exact absurd hx (List.not_mem_nil x)
        · intro x hx
          rcases List.mem_cons.mp hx with rfl | hx2
          · exact hbc
          · exact hpost x hx2
      | cons p pre2 =>
        have h2 : c = p ∧ rest = pre2 ++ w :: post := by simpa using hsplit
        obtain ⟨hc, hrest⟩ := h2
        subst hc
        have hcw : adjVal ratOps cfg c < adjVal ratOps cfg w :=
          hpre c (List.mem_cons_self _ _)
        refine ⟨c :: b :: pre2, post, ?_, ?_, hpost⟩
        · rw [hrest]
          simp
        · intro x hx
          rcases List.mem_cons.mp hx with rfl | hx2
          · exact hcw
          · rcases List.mem_cons.mp hx2 with rfl | hx3
            · exact lt_of_le_of_lt hbc hcw
            · exact hpre x (List.mem_cons_of_mem _ hx3)

theorem map_filter_of_get {α : Type} (m : List (String × WinningBid α))
    (u : String) (hpw : m.Pairwise keyLt)
    (hunit : ∀ p ∈ m, p.2.bid.unit = p.1) :
    (m.map (fun p => p.2.bid)).filter (fun b => b.unit == u) =
      ((assocGet m u).map (fun wb => wb.bid)).toList := by
  induction m with
  | nil => rfl
  | cons q rest ih =>
    obtain ⟨k, wb⟩ := q
    rw [List.pairwise_cons] at hpw
    obtain ⟨hk, hrest⟩ := hpw
    have hu : wb.bid.unit = k := hunit (k, wb) (List.mem_cons_self _ _)
    rw [List.map_cons, List.filter_cons]
    by_cases hku : k = u
    · subst hku
      rw [if_pos (by simp [hu])]
      have hrest0 :
          (rest.map (fun p => p.2.bid)).filter (fun b => b.unit == k) = [] := by
        rw [List.filter_eq_nil_iff]
        intro b hb
        rcases List.mem_map.mp hb with ⟨p, hp, rfl⟩
        have h1 : strLt k p.1 = true := hk p hp
        have h2 : p.2.bid.unit = p.1 := hunit p (List.mem_cons_of_mem _ hp)
        simp only [h2, beq_iff_eq]
        exact fun he => (strLt_ne h1) he.symm
      rw [hrest0]
      simp [assocGet]
    · rw [if_neg (by simp [hu, hku])]
      rw [show assocGet ((k, wb) :: rest) u = assocGet rest u by
        simp [assocGet, hku]]
      exact ih hrest (fun p hp => hunit p (List.mem_cons_of_mem _ hp))

theorem get_winning_bids_site {α : Type} (ops : NumOps α) (a : Auction α)
    (cfg : Config α) (sc : SiteConfig α)
    (hs : assocGet cfg.sites a.site = some sc) :
    get_winning_bids ops a cfg =
      (a.bids.foldl (stepBid ops a cfg sc) []).map (fun p => p.2.bid) := by
  unfold get_winning_bids
  rw [hs]

theorem winning_fold_unit {α : Type} (ops : NumOps α) (a : Auction α)
    (cfg : Config α) (sc : SiteConfig α) :
    ∀ p ∈ a.bids.foldl (stepBid ops a cfg sc) [], p.2.bid.unit = p.1 := by
  intro p hp
  rcases fold_entries ops a cfg sc a.bids [] p hp with h | h
  · exact absurd h (List.not_mem_nil p)
  · exact h.2.2.1.symm

theorem winning_filter_eq_scan {α : Type} (ops : NumOps α) (a : Auction α)
    (cfg : Config α) (sc : SiteConfig α) (u : String)
    (hs : assocGet cfg.sites a.site = some sc) :
    (get_winning_bids ops a cfg).filter (fun b => b.unit == u) =
      ((scanW ops cfg none
          (a.bids.filter (fun b => bidSurvives ops a cfg sc b && b.unit == u))).map
        (fun wb => wb.bid)).toList := by
  rw [get_winning_bids_site ops a cfg sc hs,
    map_filter_of_get _ u
      (fold_pairwise ops a cfg sc a.bids [] List.Pairwise.nil)
      (winning_fold_unit ops a cfg sc),
    fold_get ops a cfg sc a.bids [] u]
  rfl

theorem survivors_filter_eq {α : Type} (ops : NumOps α) (a : Auction α)
    (cfg : Config α) (sc : SiteConfig α) (u : String) :
    (survivingBids ops a cfg sc).filter (fun b => b.unit == u) =
      a.bids.filter (fun b => bidSurvives ops a cfg sc b && b.unit == u) := by
  unfold survivingBids
  rw [List.filter_filter]
  congr 1
  funext b
  exact Bool.and_comm _ _

theorem stepBidChecked_eq {α : Type} (ops : NumOps α) (a : Auction α)
    (cfg : Config α) (sc : SiteConfig α)
    (m : List (String × WinningBid α)) (b : Bid α) :
    stepBidChecked ops a cfg sc m b = some (stepBid ops a cfg sc m b) := by
  unfold stepBidChecked stepBid
  cases hval : is_valid_bid b a sc with
  | false => simp [hval]
  | true =>
    cases hadj : assocGet cfg.bidder_adjustments b.bidder with
    | none => simp [hval, hadj]
    | some adj =>
      by_cases hlt : ops.lt (ops.add b.bid adj) sc.floor = true
      · simp [hval, hadj, hlt]
      · cases hget : assocGet m b.unit with
        | none => simp [hval, hadj, hlt, hget]
        | some c =>
          by_cases hgt : ops.gt (ops.add b.bid adj) c.adjusted_bid_value = true <;>
            simp [hval, hadj, hlt, hget, hgt]

theorem foldlM_option_eq {α β : Type} (f : β → α → Option β) (g : β → α → β)
    (hfg : ∀ m b, f m b = some (g m b)) (l : List α) (m : β) :
    l.foldlM f m = some (l.foldl g m) := by
  induction l generalizing m with
  | nil => rfl
  | cons b rest ih => simp [List.foldlM_cons, hfg, ih]

theorem get_winning_bids_of_site_none {α : Type} (ops : NumOps α)
    (auction : Auction α) (config : Config α)
    (hs : assocGet config.sites auction.site = none) :
    get_winning_bids ops auction config = [] := by
  unfold get_winning_bids
  rw [hs]

theorem winning_units_pairwise {α : Type} (ops : NumOps α)
    (auction : Auction α) (config : Config α) :
    (get_winning_bids ops auction config).Pairwise
      (fun x y => strLt x.unit y.unit = true) := by
  cases hs : assocGet config.sites auction.site with
  | none =>
    rw [get_winning_bids_of_site_none ops auction config hs]
    exact List.Pairwise.nil
  | some sc =>
    rw [get_winning_bids_site ops auction config sc hs, List.pairwise_map]
    refine List.Pairwise.imp_of_mem ?_
      (fold_pairwise ops auction config sc auction.bids [] List.Pairwise.nil)
    intro p q hp hq hk
    rw [winning_fold_unit ops auction config sc p hp,
      winning_fold_unit ops auction config sc q hq]
    exact hk

/-- C1: for an auction whose site is configured and a unit with at least
one surviving bid, the bid returned by `get_winning_bids` for that unit
is the earliest bid (in `auction.bids` order) whose adjusted value
equals the maximum adjusted value among that unit's surviving bids; a
later bid replaces the winner only when strictly greater, so on ties the
earlier bid is kept. -/
theorem winner_is_first_max (auction : Auction Rat) (config : Config Rat)
    (sc : SiteConfig Rat) (u : String)
    (hs : assocGet config.sites auction.site = some sc)
    (hne : (survivingBids ratOps auction config sc).filter
      (fun b => b.unit == u) ≠ []) :
    ∃ w,
      (∀ b ∈ (survivingBids ratOps auction config sc).filter
          (fun b => b.unit == u),
        adjVal ratOps config b ≤ adjVal ratOps config w) ∧
      IsFirstMax (adjVal ratOps config)
        ((survivingBids ratOps auction config sc).filter
          (fun b => b.unit == u)) w ∧
      (get_winning_bids ratOps auction config).filter
        (fun b => b.unit == u) = [w] := by
  rw [survivors_filter_eq ratOps auction config sc u] at hne ⊢
  set l := auction.bids.filter
    (fun b => bidSurvives ratOps auction config sc b && b.unit == u) with hl
  cases hcase : l with
  | nil => exact absurd hcase hne
  | cons s rest =>
    obtain ⟨w, hw, hfm⟩ := scanW_spec config rest s
    refine ⟨w, ?_, ?_, ?_⟩
    · obtain ⟨pre, post, hsplit, hpre, hpost⟩ := hfm
      intro b hb
      rw [hsplit] at hb
      rcases List.mem_append.mp hb with hb | hb
      · exact le_of_lt (hpre b hb)
      · rcases List.mem_cons.mp hb with rfl | hb
        · exact le_refl _
        · exact hpost b hb
    · exact hfm
    · rw [winning_filter_eq_scan ratOps auction config sc u hs, ← hl,
        hcase, scanW_cons_none, hw]
      rfl

/-- C2: an eligible bid with a configured adjustment is discarded when
its adjusted value is strictly below the site floor (it is never
returned), and is retained for winner consideration (it is a surviving
bid) when its adjusted value equals the floor exactly. -/
theorem floor_boundary (auction : Auction Rat) (config : Config Rat)
    (sc : SiteConfig Rat) (b : Bid Rat) (adj : Rat)
    (hs : assocGet config.sites auction.site = some sc)
    (hv : is_valid_bid b auction sc = true)
    (ha : assocGet config.bidder_adjustments b.bidder = some adj) :
    (b.bid + adj < sc.floor → b ∉ get_winning_bids ratOps auction config) ∧
    (b.bid + adj = sc.floor → b ∈ auction.bids →
      b ∈ survivingBids ratOps auction config sc) := by
  constructor
  · intro hlt hmem
    rw [get_winning_bids_site ratOps auction config sc hs] at hmem
    rcases List.mem_map.mp hmem with ⟨p, hp, hpb⟩
    rcases fold_entries ratOps auction config sc auction.bids [] p hp with h | h
    · exact absurd h (List.not_mem_nil p)
    · have hsurv := h.2.1
      rw [hpb] at hsurv
      rcases (bidSurvives_true_iff ratOps auction config sc b).mp hsurv with
        ⟨_, adj2, ha2, hlt2⟩
      rw [ha] at ha2
      injection ha2 with ha3
      subst ha3
      have hge : sc.floor ≤ b.bid + adj := ratOps_lt_false_iff.mp hlt2
      exact absurd hlt (not_lt.mpr hge)
  · intro heq hmem
    unfold survivingBids
    rw [List.mem_filter]
    refine ⟨hmem, ?_⟩
    rw [bidSurvives_true_iff]
    refine ⟨hv, adj, ha, ?_⟩
    rw [ratOps_lt_false_iff]
    exact le_of_eq heq.symm

/-- C4: the list returned by `get_winning_bids` is strictly ascending in
the unit identifier under the code-point lexicographic string order
(the order of Rust's `BTreeMap` keys), for every auction and config. -/
theorem output_sorted_by_unit {α : Type} (ops : NumOps α)
    (auction : Auction α) (config : Config α) :
    (get_winning_bids ops auction config).Pairwise
      (fun x y => strLt x.unit y.unit = true) :=
  winning_units_pairwise ops auction config

/-- C5: an auction whose site is absent from `config.sites` yields the
empty winner list, whatever its units and bids. -/
theorem unknown_site_empty {α : Type} (ops : NumOps α) (auction : Auction α)
    (config : Config α) (hs : assocGet config.sites auction.site = none) :
    get_winning_bids ops auction config = [] :=
  get_winning_bids_of_site_none ops auction config hs

/-- C6: every returned bid is eligible: its unit is one of the auction's
units, its bidder is permitted on the auction's (configured) site, and
its bidder has a configured adjustment. -/
theorem returned_bid_eligible {α : Type} (ops : NumOps α)
    (auction : Auction α) (config : Config α) (b : Bid α)
    (hb : b ∈ get_winning_bids ops auction config) :
    b.unit ∈ auction.units ∧
    ∃ sc, assocGet config.sites auction.site = some sc ∧
      b.bidder ∈ sc.bidders ∧
      ∃ adj, assocGet config.bidder_adjustments b.bidder = some adj := by
  cases hs : assocGet config.sites auction.site with
  | none =>
    rw [get_winning_bids_of_site_none ops auction config hs] at hb
    exact absurd hb (List.not_mem_nil b)
  | some sc =>
    rw [get_winning_bids_site ops auction config sc hs] at hb
    rcases List.mem_map.mp hb with ⟨p, hp, hpb⟩
    rcases fold_entries ops auction config sc auction.bids [] p hp with h | h
    · exact absurd h (List.not_mem_nil p)
    · have hsurv := h.2.1
      rw [hpb] at hsurv
      rcases (bidSurvives_true_iff ops auction config sc b).mp hsurv with
        ⟨hval, adj, ha, _⟩
      unfold is_valid_bid at hval
      rw [Bool.and_eq_true] at hval
      refine ⟨?_, sc, rfl, ?_, adj, ha⟩
      · simpa using hval.1
      · simpa using hval.2

/-- C7: the returned list has at most one bid per unit identifier: the
units of the returned bids are pairwise distinct. -/
theorem at_most_one_bid_per_unit {α : Type} (ops : NumOps α)
    (auction : Auction α) (config : Config α) :
    ((get_winning_bids ops auction config).map (fun b => b.unit)).Nodup := by
  have h2 : (get_winning_bids ops auction config).Pairwise
      (fun x y => x.unit ≠ y.unit) :=
    (winning_units_pairwise ops auction config).imp (fun hxy => strLt_ne hxy)
  exact List.pairwise_map.mpr h2

/-- C9: the resolver never panics, for every operation table on the
price type (hence for arbitrary IEEE comparison behaviour, including
non-finite values): the fallible translation, in which the source's
`unwrap` of the current winning bid yields `none` when no winner is
present, always returns `some` of the plain result. -/
theorem resolver_never_panics {α : Type} (ops : NumOps α)
    (auction : Auction α) (config : Config α) :
    get_winning_bids_checked ops auction config =
      some (get_winning_bids ops auction config) := by
  unfold get_winning_bids_checked get_winning_bids
  cases hs : assocGet config.sites auction.site with
  | none => rfl
  | some sc =>
    show (do
        let m ← auction.bids.foldlM (stepBidChecked ops auction config sc) []
        pure (m.map (fun p => p.2.bid)) : Option (List (Bid α))) =
      some ((auction.bids.foldl (stepBid ops auction config sc) []).map
        (fun p => p.2.bid))
    rw [foldlM_option_eq _ _ (stepBidChecked_eq ops auction config sc)]
    rfl

theorem ratTrunc_cast_of_fract_zero {q : Rat} (h : ratFract q = 0) :
    ((ratTrunc q : Int) : Rat) = q := by
  unfold ratFract at h
  exact (sub_eq_zero.mp h).symm

/-- C8: a price with no fractional component is encoded through
`serialize_i64` as an integer literal, and a price with a fractional
component is encoded through `serialize_f64` as a floating-point
literal carrying the value itself. -/
theorem price_encoding (q : Rat) :
    (ratFract q = 0 → serialize_float q = JsonNum.intLit (f64_as_i64 q)) ∧
    (ratFract q ≠ 0 → serialize_float q = JsonNum.floatLit q) := by
  constructor
  · intro h
    unfold serialize_float
    rw [if_pos h]
  · intro h
    unfold serialize_float
    rw [if_neg h]

/-- C10: a whole-valued price outside the `i64` range is encoded as the
saturated bound (`i64::MAX` above, `i64::MIN` below), which differs from
the price itself — the Rust `as i64` cast saturates. -/
theorem price_encoding_saturates (q : Rat) (hfr : ratFract q = 0) :
    ((i64Max : Rat) < q →
      serialize_float q = JsonNum.intLit i64Max ∧ (i64Max : Rat) ≠ q) ∧
    (q < (i64Min : Rat) →
      serialize_float q = JsonNum.intLit i64Min ∧ (i64Min : Rat) ≠ q) := by
  have hq : ((ratTrunc q : Int) : Rat) = q := ratTrunc_cast_of_fract_zero hfr
  constructor
  · intro hgt
    have h1 : i64Max < ratTrunc q := by
      rw [← hq] at hgt
      exact_mod_cast hgt
    have h2 : f64_as_i64 q = i64Max := by
      unfold f64_as_i64
      rw [min_eq_left (le_of_lt h1)]
      exact max_eq_right (by norm_num [i64Min, i64Max])
    refine ⟨?_, ?_⟩
    · unfold serialize_float
      rw [if_pos hfr, h2]
    · intro he
      rw [← he] at hgt
      exact lt_irrefl _ hgt
  · intro hlt
    have h1 : ratTrunc q < i64Min := by
      rw [← hq] at hlt
      exact_mod_cast hlt
    have h2 : f64_as_i64 q = i64Min := by
      unfold f64_as_i64
      have hm : min i64Max (ratTrunc q) = ratTrunc q :=
        min_eq_right (le_trans (le_of_lt h1) (by norm_num [i64Min, i64Max]))
      rw [hm]
      exact max_eq_left (le_of_lt h1)
    refine ⟨?_, ?_⟩
    · unfold serialize_float
      rw [if_pos hfr, h2]
    · intro he
      rw [← he] at hlt
      exact lt_irrefl _ hlt

/-- C3: at a stream whose first element is malformed, the code does stop
processing the remaining elements, but the decode error is not the run's
terminal failure: only the detached decoder thread panics, while `main`
drains the channel, closes the output sequence and returns success
(exit status 0).  This contradicts the claim that the decode error is
propagated to the caller as the terminal failure of the whole
pipeline. -/
theorem decode_error_not_propagated :
    runPipeline ratOps sampleConfig
        [StreamItem.malformed, StreamItem.elem sampleAuction] =
      { output := [], closed := true, mainOk := true,
        decoderPanicked := true } := by
  decide

section

attribute [local semireducible] Rat.add Rat.sub Rat.mul Rat.inv

/-- Witness for C1, at the tie scenario: both sidebar bids adjust to
exactly the floor 32, and the earlier one (AUCT) is the returned
winner. -/
theorem winner_is_first_max_witness :
    ∃ w,
      (∀ b ∈ (survivingBids ratOps tieAuction sampleConfig sampleSite).filter
          (fun b => b.unit == "sidebar"),
        adjVal ratOps sampleConfig b ≤ adjVal ratOps sampleConfig w) ∧
      IsFirstMax (adjVal ratOps sampleConfig)
        ((survivingBids ratOps tieAuction sampleConfig sampleSite).filter
          (fun b => b.unit == "sidebar")) w ∧
      (get_winning_bids ratOps tieAuction sampleConfig).filter
        (fun b => b.unit == "sidebar") = [w] :=
  winner_is_first_max tieAuction sampleConfig sampleSite "sidebar"
    (by decide) (by decide)

/-- Witness for C2: the 30-bid adjusts to 29.98, below the floor 32, and
is not returned; the 32.02-bid adjusts to exactly 32 and survives. -/
theorem floor_boundary_witness :
    (⟨"AUCT", "banner", 30⟩ : Bid Rat) ∉
        get_winning_bids ratOps belowAuction sampleConfig ∧
    (⟨"AUCT", "sidebar", (3202 : Rat)/100⟩ : Bid Rat) ∈
      survivingBids ratOps tieAuction sampleConfig sampleSite := by
  constructor
  · exact (floor_boundary belowAuction sampleConfig sampleSite
      ⟨"AUCT", "banner", 30⟩ (-(2 : Rat)/100) (by decide) (by decide)
      (by decide)).1 (by decide)
  · exact (floor_boundary tieAuction sampleConfig sampleSite
      ⟨"AUCT", "sidebar", (3202 : Rat)/100⟩ (-(2 : Rat)/100) (by decide)
      (by decide) (by decide)).2 (by decide) (by decide)

/-- Witness for C5: the unknown site yields the empty list. -/
theorem unknown_site_empty_witness :
    get_winning_bids ratOps unknownAuction sampleConfig = [] :=
  unknown_site_empty ratOps unknownAuction sampleConfig (by decide)

/-- Witness for C6, at the sidebar winner of the example auction. -/
theorem returned_bid_eligible_witness :
    (⟨"BIDD", "sidebar", 60⟩ : Bid Rat).unit ∈ sampleAuction.units ∧
    ∃ sc, assocGet sampleConfig.sites sampleAuction.site = some sc ∧
      (⟨"BIDD", "sidebar", 60⟩ : Bid Rat).bidder ∈ sc.bidders ∧
      ∃ adj, assocGet sampleConfig.bidder_adjustments
        (⟨"BIDD", "sidebar", 60⟩ : Bid Rat).bidder = some adj :=
  returned_bid_eligible ratOps sampleAuction sampleConfig
    ⟨"BIDD", "sidebar", 60⟩ (by decide)

/-- Witness for C8: 3 is encoded as the integer literal 3, while 7/2 is
encoded as a floating-point literal. -/
theorem price_encoding_witness :
    serialize_float 3 = JsonNum.intLit (f64_as_i64 3) ∧
    serialize_float ((7 : Rat)/2) = JsonNum.floatLit ((7 : Rat)/2) :=
  ⟨(price_encoding 3).1 (by decide),
    (price_encoding ((7 : Rat)/2)).2 (by decide)⟩

/-- Witness for C10, at the whole values 2^64 and -(2^64), both outside
the `i64` range. -/
theorem price_encoding_saturates_witness :
    (serialize_float 18446744073709551616 = JsonNum.intLit i64Max ∧
      (i64Max : Rat) ≠ 18446744073709551616) ∧
    (serialize_float (-18446744073709551616) = JsonNum.intLit i64Min ∧
      (i64Min : Rat) ≠ -18446744073709551616) :=
  ⟨(price_encoding_saturates 18446744073709551616 (by decide)).1 (by decide),
    (price_encoding_saturates (-18446744073709551616) (by decide)).2
      (by decide)⟩

end
